import Mathlib

/- A shallow embedding of the Chip8 interpreter in src/main.rs and proofs
   about it.  Machine integers are modelled as Nat with explicit reduction
   modulo 2^8 or 2^16 exactly where the Rust code wraps; a Rust
   index-out-of-bounds abort or an explicit abort with an illegal-opcode
   message becomes an error value of Except. -/

/- Memory is the 4096-byte array, read through total functions; every index
   the interpreter uses is bounds-checked (index < 4096) before the access,
   mirroring the run-time bounds check of a Rust array. -/
abbrev Mem := Nat → Nat
abbrev Regs := Nat → Nat
abbrev Disp := Nat → Nat → Bool

/- The struct Chip8 of the source (the key_map member, pure render glue,
   is not part of the machine state; key lookups are abstracted by Input). -/
structure Chip8 where
  mem : Mem
  pc : Nat
  v : Regs
  i : Nat
  stack : Nat → Nat
  sp : Nat
  delayTimer : Nat
  soundTimer : Nat
  display : Disp

/- The interpreter aborts: with the fixed message Illegal Opcode in ROM
   (no operand data) inside the 0x0 / 0x8 / 0xE / 0xF dispatch families,
   with a message carrying only the top nibble in the dead final arm of the
   outer match, and with an index-out-of-bounds abort on any memory access
   outside 0..4095. -/
inductive Chip8Err where
  | illegalOpcode : Chip8Err
  | illegalTopNibble (nib : Nat) : Chip8Err
  | memOutOfRange (addr : Nat) : Chip8Err
deriving DecidableEq

/- Pointwise update of a function modelling an array. -/
def updF (f : Nat → Nat) (k val : Nat) : Nat → Nat :=
  fun j => if j = k then val else f j

/- Pointwise update of the display grid, indexed row first as the source. -/
def updD (d : Disp) (r c : Nat) (b : Bool) : Disp :=
  fun r0 c0 => if r0 = r then (if c0 = c then b else d r0 c0) else d r0 c0

/- fn jmp: self.pc = target. -/
def Chip8.jmp (s : Chip8) (target : Nat) : Chip8 := { s with pc := target }

/- fn cls: self.display.fill with false rows. -/
def Chip8.cls (s : Chip8) : Chip8 := { s with display := fun _ _ => false }

/- fn jsr: stack[sp] = pc; sp = (sp + 1) % 16; pc = target. -/
def Chip8.jsr (s : Chip8) (target : Nat) : Chip8 :=
  { s with stack := updF s.stack s.sp s.pc, sp := (s.sp + 1) % 16, pc := target }

/- fn rts: sp.overflowing_sub(1) on u8 overflows exactly when sp = 0, and
   then sp is set to 15; pc = stack[new sp]. -/
def Chip8.rts (s : Chip8) : Chip8 :=
  let spNew := if s.sp = 0 then 15 else s.sp - 1
  { s with sp := spNew, pc := s.stack spNew }

/- fn skc: if condition, pc += 2 (u16 wrapping add). -/
def Chip8.skc (s : Chip8) (condition : Bool) : Chip8 :=
  if condition then { s with pc := (s.pc + 2) % 65536 } else s

/- Operand decode, line for line from main.  x = instr_high & 0x0F. -/
def decodeX (hi : Nat) : Nat := hi &&& 0x0F

/- y as the source actually computes it: in Rust the expression
   instr_low & 0xF0 >> 4 parses as instr_low & (0xF0 >> 4), because the
   shift binds tighter than the bitwise and. -/
def decodeY (lo : Nat) : Nat := lo &&& (0xF0 >>> 4)

/- z = instr_low & 0x0F (the fourth nibble). -/
def decodeZ (lo : Nat) : Nat := lo &&& 0x0F

/- nnn = (x as u16) << 8 | instr_low. -/
def decodeNNN (hi lo : Nat) : Nat := decodeX hi <<< 8 ||| lo

/- Scrutinee of the outer dispatch: (instr_high & 0xF0) >> 4. -/
def topNibble (hi : Nat) : Nat := (hi &&& 0xF0) >>> 4

/- What the decode of y would have to be for the spec: the third nibble,
   bits 4 to 7 of the word.  Used only to compare against decodeY. -/
def specThirdNibble (word : Nat) : Nat := (word >>> 4) &&& 0xF

/- The inner bit loop of the draw instruction.  The fuel argument counts
   the remaining iterations of: while bit > 0, starting with bit = 0x80,
   so at fuel k + 1 the tested bit is 2 ^ k.  Exactly as the source, a set
   bit toggles display[yd][xd], V15 is set to 1 when a lit pixel is
   toggled off, then xd += 1 and the loop breaks when xd reaches 64. -/
def drawBits (sb yd : Nat) : Nat → Nat → Disp → Regs → Disp × Regs
  | 0, _, disp, v => (disp, v)
  | k + 1, xd, disp, v =>
    let next : Disp × Regs :=
      if sb.testBit k then
        if disp yd xd then (updD disp yd xd false, updF v 15 1)
        else (updD disp yd xd true, v)
      else (disp, v)
    if xd + 1 = 64 then next
    else drawBits sb yd k (xd + 1) next.1 next.2

/- The row loop of the draw instruction: for row in 0..z, read the sprite
   byte mem[i + row] (bounds-checked), re-read v[x] (x stays the decoded x
   index; the register file is threaded because the loop writes V15),
   reduce it modulo 64, run the bit loop, then yd += 1 and break when yd
   reaches 32. -/
def drawRows (mem : Mem) (istart xIdx : Nat) :
    Nat → Nat → Nat → Disp → Regs → Except Chip8Err (Disp × Regs)
  | 0, _, _, disp, v => .ok (disp, v)
  | rows + 1, r, yd, disp, v =>
    if istart + r < 4096 then
      let sb := mem (istart + r)
      let x0 := v xIdx % 64
      let dv := drawBits sb yd 8 x0 disp v
      if yd + 1 = 32 then .ok dv
      else drawRows mem istart xIdx rows (r + 1) (yd + 1) dv.1 dv.2
    else .error (.memOutOfRange (istart + r))

/- The Fx55 loop: for i in 0..x (exclusive), mem[I + i] = v[i], each write
   bounds-checked.  cnt is the remaining count, j the current index. -/
def strLoop (istart : Nat) (v : Regs) : Mem → Nat → Nat → Except Chip8Err Mem
  | mem, 0, _ => .ok mem
  | mem, cnt + 1, j =>
    if istart + j < 4096 then
      strLoop istart v (updF mem (istart + j) (v j)) cnt (j + 1)
    else .error (.memOutOfRange (istart + j))

/- The Fx65 loop: for i in 0..x (exclusive), v[i] = mem[I + i]. -/
def ldLoop (istart : Nat) (mem : Mem) : Regs → Nat → Nat → Except Chip8Err Regs
  | v, 0, _ => .ok v
  | v, cnt + 1, j =>
    if istart + j < 4096 then
      ldLoop istart mem (updF v j (mem (istart + j))) cnt (j + 1)
    else .error (.memOutOfRange (istart + j))

/- Fx33: mem[I + 2] = vx % 10, then vx /= 10 twice with the middle and
   leading digits written to I + 1 and I, in that order, each index a u16
   wrapping add bounds-checked on use. -/
def bcdWrite (s : Chip8) (x : Nat) : Except Chip8Err Chip8 :=
  let a2 := (s.i + 2) % 65536
  let a1 := (s.i + 1) % 65536
  let vx := s.v x
  if a2 < 4096 then
    let m2 := updF s.mem a2 (vx % 10)
    if a1 < 4096 then
      let m1 := updF m2 a1 (vx / 10 % 10)
      if s.i < 4096 then
        .ok { s with mem := updF m1 s.i (vx / 10 / 10 % 10) }
      else .error (.memOutOfRange s.i)
    else .error (.memOutOfRange a1)
  else .error (.memOutOfRange a2)

/- The external input collaborator: whether the key mapped from a keycode
   is held or was just released, and for Fx0A the keycode of the first
   held key found when iterating the key map, if any. -/
structure Input where
  keyDown : Nat → Bool
  keyReleased : Nat → Bool
  pressedKey : Option Nat

/- The dispatch on one fetched instruction, mirroring the match in main
   arm for arm; rnd stands for the byte drawn from the thread rng in the
   Cxnn arm.  pc has already been advanced by the fetch. -/
def exec (inp : Input) (rnd : Nat) (s : Chip8) (hi lo : Nat) : Except Chip8Err Chip8 :=
  let x := decodeX hi
  let y := decodeY lo
  let z := decodeZ lo
  let nnn := decodeNNN hi lo
  let fam := topNibble hi
  if fam = 0x0 then
    if lo = 0xE0 then .ok s.cls
    else if lo = 0xEE then .ok s.rts
    else .error .illegalOpcode
  else if fam = 0x1 then .ok (s.jmp nnn)
  else if fam = 0x2 then .ok (s.jsr nnn)
  else if fam = 0x3 then .ok (s.skc (s.v x == lo))
  else if fam = 0x4 then .ok (s.skc (s.v x != lo))
  else if fam = 0x5 then .ok (s.skc (s.v x == s.v y))
  else if fam = 0x6 then .ok { s with v := updF s.v x lo }
  else if fam = 0x7 then .ok { s with v := updF s.v x ((s.v x + lo) % 256) }
  else if fam = 0x8 then
    if z = 0x0 then .ok { s with v := updF s.v x (s.v y) }
    else if z = 0x1 then .ok { s with v := updF s.v x (s.v x ||| s.v y) }
    else if z = 0x2 then .ok { s with v := updF s.v x (s.v x &&& s.v y) }
    else if z = 0x3 then .ok { s with v := updF s.v x (s.v x ^^^ s.v y) }
    else if z = 0x4 then
      .ok { s with v := updF (updF s.v x ((s.v x + s.v y) % 256)) 15
                        (if 256 ≤ s.v x + s.v y then 1 else 0) }
    else if z = 0x5 then
      .ok { s with v := updF (updF s.v x ((s.v x + 256 - s.v y) % 256)) 15
                        (if s.v x < s.v y then 1 else 0) }
    else if z = 0x6 then
      let v1 := updF s.v 15 (s.v x &&& 1)
      .ok { s with v := updF v1 x (v1 x >>> 1) }
    else if z = 0x7 then
      .ok { s with v := updF (updF s.v x ((s.v y + 256 - s.v x) % 256)) 15
                        (if s.v y < s.v x then 1 else 0) }
    else if z = 0xE then
      let v1 := updF s.v 15 ((s.v x &&& 0x80) >>> 7)
      .ok { s with v := updF v1 x ((v1 x <<< 1) % 256) }
    else .error .illegalOpcode
  else if fam = 0x9 then .ok (s.skc (s.v x != s.v y))
  else if fam = 0xA then .ok { s with i := nnn }
  else if fam = 0xB then .ok (s.jmp (s.v 0 + nnn))
  else if fam = 0xC then .ok { s with v := updF s.v x (rnd &&& lo) }
  else if fam = 0xD then
    let yd0 := s.v y % 32
    let v0 := updF s.v 15 0
    match drawRows s.mem s.i x z 0 yd0 s.display v0 with
    | .ok dv => .ok { s with display := dv.1, v := dv.2 }
    | .error e => .error e
  else if fam = 0xE then
    if lo = 0x9E then .ok (s.skc (inp.keyDown (s.v x)))
    else if lo = 0xA1 then .ok (s.skc (inp.keyReleased (s.v x)))
    else .error .illegalOpcode
  else if fam = 0xF then
    if lo = 0x07 then .ok { s with v := updF s.v x s.delayTimer }
    else if lo = 0x0A then
      match inp.pressedKey with
      | some kc => .ok { s with v := updF s.v x kc }
      | none => .ok { s with pc := (s.pc + 65536 - 2) % 65536 }
    else if lo = 0x15 then .ok { s with delayTimer := s.v x }
    else if lo = 0x18 then .ok { s with soundTimer := s.v x }
    else if lo = 0x1E then .ok { s with i := (s.i + s.v x) % 65536 }
    else if lo = 0x29 then .ok { s with i := 0x50 + 5 * s.v x }
    else if lo = 0x33 then bcdWrite s x
    else if lo = 0x55 then
      match strLoop s.i s.v s.mem x 0 with
      | .ok m2 => .ok { s with mem := m2 }
      | .error e => .error e
    else if lo = 0x65 then
      match ldLoop s.i s.mem s.v x 0 with
      | .ok v2 => .ok { s with v := v2 }
      | .error e => .error e
    else .error .illegalOpcode
  else .error (.illegalTopNibble fam)

/- One iteration of the fetch-decode-execute loop: read the two bytes at
   pc and pc + 1 (bounds-checked), advance pc by 2 (u16 wrap), dispatch. -/
def step (inp : Input) (rnd : Nat) (s : Chip8) : Except Chip8Err Chip8 :=
  if s.pc < 4096 then
    if (s.pc + 1) % 65536 < 4096 then
      exec inp rnd { s with pc := (s.pc + 2) % 65536 }
        (s.mem s.pc) (s.mem ((s.pc + 1) % 65536))
    else .error (.memOutOfRange ((s.pc + 1) % 65536))
  else .error (.memOutOfRange s.pc)

/- The timer block at the bottom of the loop compares the elapsed wall
   clock time with Duration::from_secs_f64(1./64.); 1/64 second is exactly
   representable and converts to exactly 15625000 nanoseconds. -/
def tickThresholdNanos : Nat := 15625000

/- When the threshold is reached, each timer is decremented if nonzero and
   the baseline is reset (the returned Bool reports the reset). -/
def timersTick (elapsedNanos : Nat) (s : Chip8) : Chip8 × Bool :=
  if tickThresholdNanos ≤ elapsedNanos then
    ({ s with
        delayTimer := if 0 < s.delayTimer then s.delayTimer - 1 else s.delayTimer,
        soundTimer := if 0 < s.soundTimer then s.soundTimer - 1 else s.soundTimer }, true)
  else (s, false)

/- Iterated calls and returns, for the stack properties. -/
def jsrN (s : Chip8) : List Nat → Chip8
  | [] => s
  | t :: ts => jsrN (s.jsr t) ts

def rtsN (s : Chip8) : Nat → Chip8
  | 0 => s
  | k + 1 => rtsN s.rts k

/- Arithmetic facts about the decode helpers. -/

theorem and_fifteen_eq_mod (n : Nat) : n &&& 15 = n % 16 := by
  have h := Nat.and_pow_two_sub_one_eq_mod n 4
  norm_num at h
  exact h

theorem decodeX_eq (hi : Nat) : decodeX hi = hi % 16 :=
  and_fifteen_eq_mod hi

theorem decodeY_eq (lo : Nat) : decodeY lo = lo % 16 := by
  have h : (0xF0 >>> 4 : Nat) = 15 := rfl
  rw [decodeY, h, and_fifteen_eq_mod]

theorem decodeZ_eq (lo : Nat) : decodeZ lo = lo % 16 :=
  and_fifteen_eq_mod lo

set_option maxRecDepth 4096 in
theorem topNibble_eq : ∀ hi < 256, topNibble hi = hi / 16 := by decide

theorem decodeNNN_eq (hi lo : Nat) (hlo : lo < 256) :
    decodeNNN hi lo = hi % 16 * 256 + lo := by
  rw [decodeNNN, decodeX_eq, Nat.shiftLeft_eq]
  have h := Nat.mul_add_lt_is_or (show lo < 2 ^ 8 by simpa using hlo) (hi % 16)
  calc hi % 16 * 2 ^ 8 ||| lo = 2 ^ 8 * (hi % 16) ||| lo := by ring_nf
    _ = 2 ^ 8 * (hi % 16) + lo := h.symm
    _ = hi % 16 * 256 + lo := by ring

/- A default input collaborator: no key held, none released, none found. -/
def inp0 : Input :=
  { keyDown := fun _ => false, keyReleased := fun _ => false, pressedKey := none }

/- A concrete machine about to execute the word 0x5120 (skip if V1 = V2 per
   the spec), with V0 = V1 = 1 and V2 = 0. -/
def c1State : Chip8 :=
  { mem := fun a => if a = 0x200 then 0x51 else if a = 0x201 then 0x20 else 0
    pc := 0x200
    v := fun j => if j = 1 then 1 else if j = 0 then 1 else 0
    i := 0
    stack := fun _ => 0
    sp := 0
    delayTimer := 0
    soundTimer := 0
    display := fun _ _ => false }

/-- Claim C1 (code bug): the claim says the decoded operand y is bits 4 to 7
of the word (the third nibble), but the source line
let y = instr_low & 0xF0 >> 4 parses as instr_low & (0xF0 >> 4) =
instr_low & 0x0F, the fourth nibble.  For the word 0x5120 the third nibble
is 2 while decodeY of the low byte gives 0, and consequently the executed
5xy0 instruction compares V1 with V0 instead of V2: from a state with
V1 = V0 = 1, V2 = 0 the skip is taken (pc ends at 0x204) although V1 is not
equal to V2. -/
theorem C1_decode_y_bug :
    decodeY 0x20 = 0 ∧ specThirdNibble 0x5120 = 2 ∧
    ∃ s2, step inp0 0 c1State = .ok s2 ∧ s2.pc = 0x204 :=
  ⟨by decide, by decide, _, rfl, rfl⟩

/-- Claim C6 (confirmed): executing 7xnn adds the immediate to Vx wrapping
modulo 256, leaves every other register (the flag register V15 included, when
it is not the target) unchanged, and touches no other machine state. -/
theorem C6_add_immediate_no_carry (inp : Input) (rnd : Nat) (s : Chip8)
    (xf lo : Nat) (hx : xf < 16) :
    ∃ s2, exec inp rnd s (0x70 + xf) lo = .ok s2 ∧
      s2.v xf = (s.v xf + lo) % 256 ∧
      (∀ j, j ≠ xf → s2.v j = s.v j) ∧
      s2.pc = s.pc ∧ s2.i = s.i ∧ s2.mem = s.mem ∧ s2.display = s.display ∧
      s2.delayTimer = s.delayTimer ∧ s2.soundTimer = s.soundTimer ∧
      s2.stack = s.stack ∧ s2.sp = s.sp := by
  have hfam : topNibble (0x70 + xf) = 7 := by
    rw [topNibble_eq (0x70 + xf) (by omega)]; omega
  have hdx : decodeX (0x70 + xf) = xf := by rw [decodeX_eq]; omega
  have hexec : exec inp rnd s (0x70 + xf) lo =
      .ok { s with v := updF s.v xf ((s.v xf + lo) % 256) } := by
    simp only [exec, hfam, hdx]
    norm_num
  refine ⟨_, hexec, ?_, ?_, rfl, rfl, rfl, rfl, rfl, rfl, rfl, rfl⟩
  · simp [updF]
  · intro j hj
    simp [updF, hj]

/-- Witness for Claim C6 at a concrete input: x = 1, nn = 0xFF, from the
state c1State where V1 = 1. -/
theorem C6_add_immediate_no_carry_witness :
    (1 : Nat) < 16 ∧
    ∃ s2, exec inp0 0 c1State (0x70 + 1) 0xFF = .ok s2 ∧
      s2.v 1 = (c1State.v 1 + 0xFF) % 256 ∧
      (∀ j, j ≠ 1 → s2.v j = c1State.v j) ∧
      s2.pc = c1State.pc ∧ s2.i = c1State.i ∧ s2.mem = c1State.mem ∧
      s2.display = c1State.display ∧ s2.delayTimer = c1State.delayTimer ∧
      s2.soundTimer = c1State.soundTimer ∧
      s2.stack = c1State.stack ∧ s2.sp = c1State.sp :=
  ⟨by norm_num, C6_add_immediate_no_carry inp0 0 c1State 1 0xFF (by norm_num)⟩

/- A state with nonzero timers for the timer-tick claim. -/
def c10State : Chip8 := { c1State with delayTimer := 5, soundTimer := 3 }

/-- Claim C10 (code bug): the claim (and the spec) say a tick happens exactly
when at least 1/60 second has accumulated, but the source compares against
Duration::from_secs_f64(1./64.), which is exactly 15625000 nanoseconds.  At
an elapsed time of 16000000 nanoseconds, which is less than 1/60 second
(16000000 * 60 < 10^9), the code nevertheless ticks: the baseline is reset
and both nonzero timers are decremented by 1.  The last conjunct pins the
literal: the threshold times 64 is one second in nanoseconds. -/
theorem C10_timer_tick_threshold_bug :
    (timersTick 16000000 c10State).2 = true ∧
    (timersTick 16000000 c10State).1.delayTimer = 4 ∧
    (timersTick 16000000 c10State).1.soundTimer = 2 ∧
    16000000 * 60 < 1000000000 ∧
    tickThresholdNanos * 64 = 1000000000 :=
  ⟨rfl, rfl, rfl, by norm_num, by norm_num [tickThresholdNanos]⟩

/- A machine about to execute 0x8155 (8xy5 with x = 1, y = 5) with V1 = 5
   and V5 = 3: the subtraction 5 - 3 does not borrow. -/
def c2State : Chip8 :=
  { mem := fun a => if a = 0x200 then 0x81 else if a = 0x201 then 0x55 else 0
    pc := 0x200
    v := fun j => if j = 1 then 5 else if j = 5 then 3 else 0
    i := 0
    stack := fun _ => 0
    sp := 0
    delayTimer := 0
    soundTimer := 0
    display := fun _ _ => false }

/-- Claim C2 counterexample: executing 8xy5 with x = 1, y = 5, V1 = 5 and
V5 = 3 stores 2 in V1 (the difference, as claimed), but sets VF to 0 even
though the subtraction did not borrow; the claim demands VF = 1 on
no-borrow.  The source assigns the overflowing_sub overflow flag to VF
directly, so the polarity is inverted relative to the claim. -/
theorem C2_counterexample :
    ∃ s2, step inp0 0 c2State = .ok s2 ∧ s2.v 1 = 2 ∧ s2.v 15 = 0 :=
  ⟨_, rfl, rfl, rfl⟩

/-- Claim C2 amended: for all register contents, 8xy5 stores
(Vx - Vy) mod 256 in Vx and sets VF to 1 if and only if the subtraction
borrowed (Vx less than Vy), and 0 on no-borrow; 8xy7 stores (Vy - Vx) mod 256
and sets VF to 1 iff Vy is less than Vx; the (inverted) polarity is
consistent across both forms.  Here Vy is the register selected by the
decoded y operand, which equals the low nibble of the instruction (5 for
8xy5 and 7 for 8xy7), and when x = 15 the flag write overwrites the stored
difference, so the difference conclusion carries that side condition. -/
theorem C2_sub_borrow_flag (inp : Input) (rnd : Nat) (s : Chip8) (xf yf : Nat)
    (hx : xf < 16) (_hy : yf < 16) :
    (∃ s2, exec inp rnd s (0x80 + xf) (16 * yf + 0x5) = .ok s2 ∧
       (xf ≠ 15 → s2.v xf = (s.v xf + 256 - s.v 5) % 256) ∧
       s2.v 15 = (if s.v xf < s.v 5 then 1 else 0) ∧
       (∀ j, j ≠ xf → j ≠ 15 → s2.v j = s.v j)) ∧
    (∃ s2, exec inp rnd s (0x80 + xf) (16 * yf + 0x7) = .ok s2 ∧
       (xf ≠ 15 → s2.v xf = (s.v 7 + 256 - s.v xf) % 256) ∧
       s2.v 15 = (if s.v 7 < s.v xf then 1 else 0) ∧
       (∀ j, j ≠ xf → j ≠ 15 → s2.v j = s.v j)) := by
  have hfam : topNibble (0x80 + xf) = 8 := by
    rw [topNibble_eq (0x80 + xf) (by omega)]; omega
  have hdx : decodeX (0x80 + xf) = xf := by rw [decodeX_eq]; omega
  constructor
  · have hdy : decodeY (16 * yf + 0x5) = 5 := by rw [decodeY_eq]; omega
    have hdz : decodeZ (16 * yf + 0x5) = 5 := by rw [decodeZ_eq]; omega
    have hexec : exec inp rnd s (0x80 + xf) (16 * yf + 0x5) =
        .ok { s with v := updF (updF s.v xf ((s.v xf + 256 - s.v 5) % 256)) 15
                        (if s.v xf < s.v 5 then 1 else 0) } := by
      simp only [exec, hfam, hdx, hdy, hdz]
      norm_num
    refine ⟨_, hexec, ?_, ?_, ?_⟩
    · intro hne; simp [updF, hne]
    · simp [updF]
    · intro j hj1 hj2; simp [updF, hj1, hj2]
  · have hdy : decodeY (16 * yf + 0x7) = 7 := by rw [decodeY_eq]; omega
    have hdz : decodeZ (16 * yf + 0x7) = 7 := by rw [decodeZ_eq]; omega
    have hexec : exec inp rnd s (0x80 + xf) (16 * yf + 0x7) =
        .ok { s with v := updF (updF s.v xf ((s.v 7 + 256 - s.v xf) % 256)) 15
                        (if s.v 7 < s.v xf then 1 else 0) } := by
      simp only [exec, hfam, hdx, hdy, hdz]
      norm_num
    refine ⟨_, hexec, ?_, ?_, ?_⟩
    · intro hne; simp [updF, hne]
    · simp [updF]
    · intro j hj1 hj2; simp [updF, hj1, hj2]

/-- Witness for the amended Claim C2 at x = 1, y = 5 respectively y = 5 for
the 7 form, from the state c2State where V1 = 5, V5 = 3, V7 = 0. -/
theorem C2_sub_borrow_flag_witness :
    (1 : Nat) < 16 ∧ (5 : Nat) < 16 ∧
    ((∃ s2, exec inp0 0 c2State (0x80 + 1) (16 * 5 + 0x5) = .ok s2 ∧
       ((1 : Nat) ≠ 15 → s2.v 1 = (c2State.v 1 + 256 - c2State.v 5) % 256) ∧
       s2.v 15 = (if c2State.v 1 < c2State.v 5 then 1 else 0) ∧
       (∀ j, j ≠ 1 → j ≠ 15 → s2.v j = c2State.v j)) ∧
    (∃ s2, exec inp0 0 c2State (0x80 + 1) (16 * 5 + 0x7) = .ok s2 ∧
       ((1 : Nat) ≠ 15 → s2.v 1 = (c2State.v 7 + 256 - c2State.v 1) % 256) ∧
       s2.v 15 = (if c2State.v 7 < c2State.v 1 then 1 else 0) ∧
       (∀ j, j ≠ 1 → j ≠ 15 → s2.v j = c2State.v j))) :=
  ⟨by norm_num, by norm_num,
    C2_sub_borrow_flag inp0 0 c2State 1 5 (by norm_num) (by norm_num)⟩

/- A machine about to execute the unrecognized word 0x00FF. -/
def c9State : Chip8 :=
  { c1State with
      mem := fun a => if a = 0x200 then 0x00 else if a = 0x201 then 0xFF else 0 }

/-- Claim C9 counterexample: at the unrecognized word 0x00FF (family 0x0,
low byte neither 0xE0 nor 0xEE) the interpreter aborts with the fixed
message Illegal Opcode in ROM.  That abort carries no operand data at all,
so the resulting error is the bare illegalOpcode value and not an error
carrying the raw 16-bit word 0x00FF as the claim states; the only abort arm
that formats an operand is the dead final arm of the outer match, and it
formats only the top nibble. -/
theorem C9_counterexample :
    step inp0 0 c9State = .error Chip8Err.illegalOpcode := rfl

/-- Claim C9 amended: any unrecognized low-byte or low-nibble combination
inside the dispatching families 0x0, 0x8, 0xE and 0xF fails with the fatal
illegal-opcode abort rather than being silently ignored; the abort carries
no operand data (and an unrecognized top nibble cannot occur, every value
0x0 to 0xF being matched by an arm of the outer dispatch). -/
theorem C9_unrecognized_fails (inp : Input) (rnd : Nat) (s : Chip8)
    (hi lo : Nat) :
    (topNibble hi = 0x0 → lo ≠ 0xE0 → lo ≠ 0xEE →
       exec inp rnd s hi lo = .error .illegalOpcode) ∧
    (topNibble hi = 0x8 → decodeZ lo ≠ 0x0 → decodeZ lo ≠ 0x1 →
       decodeZ lo ≠ 0x2 → decodeZ lo ≠ 0x3 → decodeZ lo ≠ 0x4 →
       decodeZ lo ≠ 0x5 → decodeZ lo ≠ 0x6 → decodeZ lo ≠ 0x7 →
       decodeZ lo ≠ 0xE → exec inp rnd s hi lo = .error .illegalOpcode) ∧
    (topNibble hi = 0xE → lo ≠ 0x9E → lo ≠ 0xA1 →
       exec inp rnd s hi lo = .error .illegalOpcode) ∧
    (topNibble hi = 0xF → lo ≠ 0x07 → lo ≠ 0x0A → lo ≠ 0x15 → lo ≠ 0x18 →
       lo ≠ 0x1E → lo ≠ 0x29 → lo ≠ 0x33 → lo ≠ 0x55 → lo ≠ 0x65 →
       exec inp rnd s hi lo = .error .illegalOpcode) := by
  refine ⟨?_, ?_, ?_, ?_⟩
  · intro h h1 h2
    simp only [exec, h]
    simp [h1, h2]
  · intro h h0 h1 h2 h3 h4 h5 h6 h7 hE
    simp only [exec, h]
    simp [h0, h1, h2, h3, h4, h5, h6, h7, hE]
  · intro h h1 h2
    simp only [exec, h]
    simp [h1, h2]
  · intro h h1 h2 h3 h4 h5 h6 h7 h8 h9
    simp only [exec, h]
    simp [h1, h2, h3, h4, h5, h6, h7, h8, h9]

/-- Witness for the amended Claim C9: one unrecognized word per dispatching
family, each failing with the bare illegal-opcode abort. -/
theorem C9_unrecognized_fails_witness :
    exec inp0 0 c1State 0x00 0xFF = .error .illegalOpcode ∧
    exec inp0 0 c1State 0x88 0x08 = .error .illegalOpcode ∧
    exec inp0 0 c1State 0xE1 0x55 = .error .illegalOpcode ∧
    exec inp0 0 c1State 0xF2 0xFF = .error .illegalOpcode :=
  ⟨(C9_unrecognized_fails inp0 0 c1State 0x00 0xFF).1 (by decide) (by decide) (by decide),
   (C9_unrecognized_fails inp0 0 c1State 0x88 0x08).2.1 (by decide) (by decide) (by decide)
     (by decide) (by decide) (by decide) (by decide) (by decide) (by decide) (by decide),
   (C9_unrecognized_fails inp0 0 c1State 0xE1 0x55).2.2.1 (by decide) (by decide) (by decide),
   (C9_unrecognized_fails inp0 0 c1State 0xF2 0xFF).2.2.2 (by decide) (by decide) (by decide)
     (by decide) (by decide) (by decide) (by decide) (by decide) (by decide) (by decide)⟩

/- Unfolding lemmas for the iterated return. -/
theorem rtsN_succ (s : Chip8) (k : Nat) : rtsN s (k + 1) = (rtsN s k).rts := by
  induction k generalizing s with
  | zero => rfl
  | succ k ih =>
    show rtsN s.rts (k + 1) = (rtsN s (k + 1)).rts
    rw [ih s.rts]
    rfl

theorem rts_stack (s : Chip8) : s.rts.stack = s.stack := rfl

/- Popping right after a push restores the stack pointer: the source
   increments sp modulo 16 and the return decrements with wraparound from
   0 back to 15. -/
theorem sp_push_pop (sp : Nat) (h : sp < 16) :
    (if (sp + 1) % 16 = 0 then 15 else (sp + 1) % 16 - 1) = sp := by
  rcases Nat.lt_or_ge (sp + 1) 16 with h1 | h1
  · rw [Nat.mod_eq_of_lt h1, if_neg (by omega : ¬ sp + 1 = 0)]
    omega
  · have h15 : sp = 15 := by omega
    subst h15
    norm_num

/- Up to 16 nested calls unwind fully: after pushing the targets ts with
   jsr, ts.length returns restore the program counter, the stack pointer,
   and every stack slot below the initial stack pointer. -/
theorem jsrN_rtsN_restore (ts : List Nat) :
    ∀ s : Chip8, s.sp < 16 → s.sp + ts.length ≤ 16 →
      (rtsN (jsrN s ts) ts.length).pc = s.pc ∧
      (rtsN (jsrN s ts) ts.length).sp = s.sp ∧
      ∀ j, j < s.sp → (rtsN (jsrN s ts) ts.length).stack j = s.stack j := by
  induction ts with
  | nil =>
    intro s _ _
    exact ⟨rfl, rfl, fun j _ => rfl⟩
  | cons t ts ih =>
    intro s hsp hlen
    have hlist : (t :: ts).length = ts.length + 1 := rfl
    have hjs : jsrN s (t :: ts) = jsrN (s.jsr t) ts := rfl
    rw [hlist, hjs, rtsN_succ]
    rcases Nat.lt_or_ge (s.sp + 1) 16 with h16 | h16
    · have hsp1 : (s.jsr t).sp = s.sp + 1 := by
        simp [Chip8.jsr, Nat.mod_eq_of_lt h16]
      obtain ⟨hpc, hsp2, hstk⟩ :=
        ih (s.jsr t) (by omega) (by rw [hsp1]; simp at hlen; omega)
      have hspne : (rtsN (jsrN (s.jsr t) ts) ts.length).sp ≠ 0 := by
        rw [hsp2, hsp1]; omega
      have hstksp : (rtsN (jsrN (s.jsr t) ts) ts.length).stack s.sp = s.pc := by
        rw [hstk s.sp (by omega), Chip8.jsr]
        simp [updF]
      refine ⟨?_, ?_, ?_⟩
      · show (rtsN (jsrN (s.jsr t) ts) ts.length).rts.pc = s.pc
        simp only [Chip8.rts, if_neg hspne]
        rw [hsp2, hsp1]
        simpa using hstksp
      · show (rtsN (jsrN (s.jsr t) ts) ts.length).rts.sp = s.sp
        simp only [Chip8.rts, if_neg hspne]
        rw [hsp2, hsp1]
        omega
      · intro j hj
        show (rtsN (jsrN (s.jsr t) ts) ts.length).rts.stack j = s.stack j
        rw [rts_stack, hstk j (by omega), Chip8.jsr]
        simp only [updF]
        rw [if_neg (by omega : ¬ j = s.sp)]
    · have h15 : s.sp = 15 := by omega
      have hts : ts = [] := by
        have hl : ts.length = 0 := by simp at hlen; omega
        exact List.length_eq_zero.mp hl
      subst hts
      have hspj : (s.jsr t).sp = 0 := by simp [Chip8.jsr, h15]
      refine ⟨?_, ?_, ?_⟩
      · show (s.jsr t).rts.pc = s.pc
        simp only [Chip8.rts, hspj, if_pos rfl]
        simp [Chip8.jsr, updF, h15]
      · show (s.jsr t).rts.sp = s.sp
        simp only [Chip8.rts, hspj]
        norm_num [h15]
      · intro j hj
        show (s.jsr t).rts.stack j = s.stack j
        rw [rts_stack, Chip8.jsr]
        simp only [updF]
        rw [if_neg (by omega : ¬ j = s.sp)]

/-- Claim C5 (confirmed): 2nnn pushes the already-advanced program counter
and jumps to nnn; a 2nnn followed immediately by 00EE restores the program
counter to the instruction after the call (first conjunct, at the level of
whole fetch-decode-execute steps); the call-return round trip holds for up
to 16 nested calls (second conjunct, via the jsr and rts routines); and a
17th nested call overwrites the oldest stack slot, the stack pointer
wrapping modulo 16 instead of growing or faulting (third conjunct: after 16
calls slot 0 still holds the original pc, after a 17th it holds the 16th
target, the pc pushed by the 17th call, and the stack pointer has wrapped
to 1). -/
theorem C5_call_return_roundtrip :
    (∀ (inp : Input) (rnd : Nat) (s : Chip8) (nnn : Nat),
      s.pc + 1 < 4096 → nnn + 1 < 4096 → s.sp < 16 →
      s.mem s.pc = 0x20 + nnn / 256 → s.mem (s.pc + 1) = nnn % 256 →
      s.mem nnn = 0x00 → s.mem (nnn + 1) = 0xEE →
      ∃ s1 s2, step inp rnd s = .ok s1 ∧ s1.pc = nnn ∧
        s1.stack s.sp = (s.pc + 2) % 65536 ∧ s1.sp = (s.sp + 1) % 16 ∧
        step inp rnd s1 = .ok s2 ∧ s2.pc = (s.pc + 2) % 65536 ∧ s2.sp = s.sp) ∧
    (∀ (s : Chip8) (ts : List Nat), s.sp < 16 → s.sp + ts.length ≤ 16 →
      (rtsN (jsrN s ts) ts.length).pc = s.pc ∧
      (rtsN (jsrN s ts) ts.length).sp = s.sp) ∧
    (∀ (s : Chip8)
       (t1 t2 t3 t4 t5 t6 t7 t8 t9 t10 t11 t12 t13 t14 t15 t16 t17 : Nat),
      s.sp = 0 →
      (jsrN s [t1, t2, t3, t4, t5, t6, t7, t8,
               t9, t10, t11, t12, t13, t14, t15, t16]).stack 0 = s.pc ∧
      (jsrN s [t1, t2, t3, t4, t5, t6, t7, t8,
               t9, t10, t11, t12, t13, t14, t15, t16, t17]).stack 0 = t16 ∧
      (jsrN s [t1, t2, t3, t4, t5, t6, t7, t8,
               t9, t10, t11, t12, t13, t14, t15, t16, t17]).sp = 1) := by
  refine ⟨?_, ?_, ?_⟩
  · intro inp rnd s nnn hpc hnnn hsp hm1 hm2 hm3 hm4
    have hfam1 : topNibble (0x20 + nnn / 256) = 2 := by
      rw [topNibble_eq (0x20 + nnn / 256) (by omega)]
      omega
    have hnnn1 : decodeNNN (0x20 + nnn / 256) (nnn % 256) = nnn := by
      rw [decodeNNN_eq _ _ (by omega)]
      omega
    have hstep1 : step inp rnd s =
        .ok (Chip8.jsr { s with pc := (s.pc + 2) % 65536 } nnn) := by
      simp only [step]
      rw [if_pos (by omega : s.pc < 4096),
        Nat.mod_eq_of_lt (by omega : s.pc + 1 < 65536),
        if_pos (by omega : s.pc + 1 < 4096), hm1, hm2]
      simp only [exec, hfam1, hnnn1]
      norm_num
    set s1 := Chip8.jsr { s with pc := (s.pc + 2) % 65536 } nnn with hs1
    have h1pc : s1.pc = nnn := rfl
    have h1sp : s1.sp = (s.sp + 1) % 16 := rfl
    have h1mem : s1.mem = s.mem := rfl
    have h1stk : s1.stack s.sp = (s.pc + 2) % 65536 := by
      simp [hs1, Chip8.jsr, updF]
    have hstep2 : step inp rnd s1 =
        .ok (Chip8.rts { s1 with pc := (nnn + 2) % 65536 }) := by
      simp only [step, h1mem, h1pc]
      rw [if_pos (by omega : nnn < 4096),
        Nat.mod_eq_of_lt (by omega : nnn + 1 < 65536),
        if_pos (by omega : nnn + 1 < 4096), hm3, hm4]
      simp only [exec]
      norm_num [topNibble, decodeX, decodeY, decodeZ, decodeNNN]
    refine ⟨s1, _, hstep1, h1pc, h1stk, h1sp, hstep2, ?_, ?_⟩
    · show ({ s1 with pc := (nnn + 2) % 65536 } : Chip8).rts.pc = (s.pc + 2) % 65536
      simp only [Chip8.rts, h1sp]
      rw [sp_push_pop s.sp hsp]
      exact h1stk
    · show ({ s1 with pc := (nnn + 2) % 65536 } : Chip8).rts.sp = s.sp
      simp only [Chip8.rts, h1sp]
      rw [sp_push_pop s.sp hsp]
  · intro s ts h1 h2
    exact ⟨(jsrN_rtsN_restore ts s h1 h2).1, (jsrN_rtsN_restore ts s h1 h2).2.1⟩
  · intro s t1 t2 t3 t4 t5 t6 t7 t8 t9 t10 t11 t12 t13 t14 t15 t16 t17 hsp
    refine ⟨?_, ?_, ?_⟩
    · simp [jsrN, Chip8.jsr, updF, hsp]
    · simp [jsrN, Chip8.jsr, updF, hsp]
    · simp [jsrN, Chip8.jsr, updF, hsp]

/- A machine whose program is: at 0x200 the call 0x2210, and at the call
   target 0x210 the return 0x00EE. -/
def c5State : Chip8 :=
  { mem := fun a => if a = 0x200 then 0x22 else if a = 0x201 then 0x10
      else if a = 0x210 then 0x00 else if a = 0x211 then 0xEE else 0
    pc := 0x200
    v := fun _ => 0
    i := 0
    stack := fun _ => 0
    sp := 0
    delayTimer := 0
    soundTimer := 0
    display := fun _ _ => false }

/-- Witness for Claim C5: the call instruction 0x2210 at 0x200 followed by
the return 0x00EE at 0x210, a depth-2 unwinding, and the concrete 17-call
overwrite, all from the state c5State. -/
theorem C5_call_return_roundtrip_witness :
    (∃ s1 s2, step inp0 0 c5State = .ok s1 ∧ s1.pc = 0x210 ∧
      s1.stack c5State.sp = (c5State.pc + 2) % 65536 ∧
      s1.sp = (c5State.sp + 1) % 16 ∧
      step inp0 0 s1 = .ok s2 ∧ s2.pc = (c5State.pc + 2) % 65536 ∧
      s2.sp = c5State.sp) ∧
    ((rtsN (jsrN c5State [0x300, 0x400]) 2).pc = c5State.pc ∧
     (rtsN (jsrN c5State [0x300, 0x400]) 2).sp = c5State.sp) ∧
    ((jsrN c5State [1, 2, 3, 4, 5, 6, 7, 8,
                    9, 10, 11, 12, 13, 14, 15, 16]).stack 0 = c5State.pc ∧
     (jsrN c5State [1, 2, 3, 4, 5, 6, 7, 8,
                    9, 10, 11, 12, 13, 14, 15, 16, 17]).stack 0 = 16 ∧
     (jsrN c5State [1, 2, 3, 4, 5, 6, 7, 8,
                    9, 10, 11, 12, 13, 14, 15, 16, 17]).sp = 1) :=
  ⟨C5_call_return_roundtrip.1 inp0 0 c5State 0x210 (by norm_num [c5State])
     (by norm_num) (by norm_num [c5State]) (by norm_num [c5State])
     (by norm_num [c5State]) (by norm_num [c5State]) (by norm_num [c5State]),
   C5_call_return_roundtrip.2.1 c5State [0x300, 0x400]
     (by norm_num [c5State]) (by norm_num [c5State]),
   C5_call_return_roundtrip.2.2 c5State 1 2 3 4 5 6 7 8 9 10 11 12 13 14 15 16 17
     (by norm_num [c5State])⟩

/- Characterization of the Fx55 store loop: when every touched address is
   in range the loop succeeds and writes v[j], v[j+1], ... to the cnt
   consecutive cells from istart + j, leaving all other cells alone. -/
theorem strLoop_ok (istart : Nat) (v : Regs) :
    ∀ (cnt j : Nat) (mem : Mem), istart + j + cnt ≤ 4096 →
      ∃ m2, strLoop istart v mem cnt j = .ok m2 ∧
        ∀ a, m2 a = if istart + j ≤ a ∧ a < istart + j + cnt
          then v (a - istart) else mem a := by
  intro cnt
  induction cnt with
  | zero =>
    intro j mem h
    refine ⟨mem, rfl, fun a => ?_⟩
    rw [if_neg (by omega)]
  | succ cnt ih =>
    intro j mem h
    have hlt : istart + j < 4096 := by omega
    have hstep : strLoop istart v mem (cnt + 1) j =
        strLoop istart v (updF mem (istart + j) (v j)) cnt (j + 1) := by
      simp [strLoop, hlt]
    obtain ⟨m2, hok, hchar⟩ := ih (j + 1) (updF mem (istart + j) (v j)) (by omega)
    refine ⟨m2, by rw [hstep, hok], fun a => ?_⟩
    rw [hchar a]
    by_cases h1 : a = istart + j
    · subst h1
      rw [if_neg (by omega), if_pos (by omega)]
      have hj : istart + j - istart = j := by omega
      rw [hj]
      simp [updF]
    · by_cases h2 : istart + (j + 1) ≤ a ∧ a < istart + (j + 1) + cnt
      · rw [if_pos h2, if_pos (by omega)]
      · rw [if_neg h2, if_neg (by omega)]
        simp [updF, h1]

/- Characterization of the Fx65 load loop: the loop succeeds and loads
   mem[istart + r] into register r for the cnt registers from j on,
   leaving all other registers alone. -/
theorem ldLoop_ok (istart : Nat) (mem : Mem) :
    ∀ (cnt j : Nat) (v : Regs), istart + j + cnt ≤ 4096 →
      ∃ v2, ldLoop istart mem v cnt j = .ok v2 ∧
        ∀ r, v2 r = if j ≤ r ∧ r < j + cnt then mem (istart + r) else v r := by
  intro cnt
  induction cnt with
  | zero =>
    intro j v h
    refine ⟨v, rfl, fun r => ?_⟩
    rw [if_neg (by omega)]
  | succ cnt ih =>
    intro j v h
    have hlt : istart + j < 4096 := by omega
    have hstep : ldLoop istart mem v (cnt + 1) j =
        ldLoop istart mem (updF v j (mem (istart + j))) cnt (j + 1) := by
      simp [ldLoop, hlt]
    obtain ⟨v2, hok, hchar⟩ := ih (j + 1) (updF v j (mem (istart + j))) (by omega)
    refine ⟨v2, by rw [hstep, hok], fun r => ?_⟩
    rw [hchar r]
    by_cases h1 : r = j
    · subst h1
      rw [if_neg (by omega), if_pos (by omega)]
      simp [updF]
    · by_cases h2 : j + 1 ≤ r ∧ r < j + 1 + cnt
      · rw [if_pos h2, if_pos (by omega)]
      · rw [if_neg h2, if_neg (by omega)]
        simp [updF, h1]

/-- Claim C8 (confirmed): Fx55 with operand nibble x writes exactly the x
bytes V0 to V(x-1) to addresses I to I+x-1 (and no other cell), never
touching Vx itself nor any register, and Fx65 symmetrically loads exactly
V0 to V(x-1) from those addresses, never touching memory; with x = 0 the
characterizations make both instructions complete no-ops on memory and
registers (the exclusive-range reading). -/
theorem C8_store_load_exclusive (inp : Input) (rnd : Nat) (s : Chip8)
    (xf : Nat) (hx : xf < 16) (hb : s.i + xf ≤ 4096) :
    (∃ s2, exec inp rnd s (0xF0 + xf) 0x55 = .ok s2 ∧
       (∀ a, s2.mem a = if s.i ≤ a ∧ a < s.i + xf then s.v (a - s.i)
          else s.mem a) ∧
       s2.v = s.v ∧ s2.i = s.i ∧ s2.pc = s.pc ∧ s2.display = s.display) ∧
    (∃ s2, exec inp rnd s (0xF0 + xf) 0x65 = .ok s2 ∧
       (∀ j, s2.v j = if j < xf then s.mem (s.i + j) else s.v j) ∧
       s2.mem = s.mem ∧ s2.i = s.i ∧ s2.pc = s.pc ∧ s2.display = s.display) := by
  have hfam : topNibble (0xF0 + xf) = 15 := by
    rw [topNibble_eq (0xF0 + xf) (by omega)]
    omega
  have hdx : decodeX (0xF0 + xf) = xf := by rw [decodeX_eq]; omega
  constructor
  · obtain ⟨m2, hok, hchar⟩ := strLoop_ok s.i s.v xf 0 s.mem (by omega)
    have hexec : exec inp rnd s (0xF0 + xf) 0x55 = .ok { s with mem := m2 } := by
      simp only [exec, hfam, hdx]
      norm_num
      rw [hok]
    refine ⟨_, hexec, fun a => ?_, rfl, rfl, rfl, rfl⟩
    have := hchar a
    simpa using this
  · obtain ⟨v2, hok, hchar⟩ := ldLoop_ok s.i s.mem xf 0 s.v (by omega)
    have hexec : exec inp rnd s (0xF0 + xf) 0x65 = .ok { s with v := v2 } := by
      simp only [exec, hfam, hdx]
      norm_num
      rw [hok]
    refine ⟨_, hexec, fun j => ?_, rfl, rfl, rfl, rfl⟩
    have := hchar j
    simpa using this

/- The machine used for the register store and load scenarios: V0 = 7,
   V1 = 9, I = 0x300, empty memory. -/
def c7State : Chip8 :=
  { mem := fun _ => 0
    pc := 0x200
    v := fun j => if j = 0 then 7 else if j = 1 then 9 else 0
    i := 0x300
    stack := fun _ => 0
    sp := 0
    delayTimer := 0
    soundTimer := 0
    display := fun _ _ => false }

/-- Witness for Claim C8 at x = 2 from the state c7State. -/
theorem C8_store_load_exclusive_witness :
    (2 : Nat) < 16 ∧ c7State.i + 2 ≤ 4096 ∧
    ((∃ s2, exec inp0 0 c7State (0xF0 + 2) 0x55 = .ok s2 ∧
       (∀ a, s2.mem a = if c7State.i ≤ a ∧ a < c7State.i + 2
          then c7State.v (a - c7State.i) else c7State.mem a) ∧
       s2.v = c7State.v ∧ s2.i = c7State.i ∧ s2.pc = c7State.pc ∧
       s2.display = c7State.display) ∧
    (∃ s2, exec inp0 0 c7State (0xF0 + 2) 0x65 = .ok s2 ∧
       (∀ j, s2.v j = if j < 2 then c7State.mem (c7State.i + j)
          else c7State.v j) ∧
       s2.mem = c7State.mem ∧ s2.i = c7State.i ∧ s2.pc = c7State.pc ∧
       s2.display = c7State.display)) :=
  ⟨by norm_num, by norm_num [c7State],
   C8_store_load_exclusive inp0 0 c7State 2 (by norm_num) (by norm_num [c7State])⟩

/-- Claim C7 counterexample: under the inclusive reading of the stored
range the round trip must reproduce Vx itself, but with x = 1 (store
0xF155, then load 0xF165 into cleared registers from the same I) the code
reproduces V0 = 7 yet leaves V1 = 0 although V1 was 9 before: the loops
iterate over 0..x exclusively, so Vx is outside the stored range. -/
theorem C7_counterexample :
    ∃ s1, exec inp0 0 c7State 0xF1 0x55 = .ok s1 ∧
      ∃ s3, exec inp0 0 { s1 with v := fun _ => 0 } 0xF1 0x65 = .ok s3 ∧
        s3.v 0 = 7 ∧ s3.v 1 = 0 ∧ c7State.v 1 = 9 :=
  ⟨_, rfl, _, rfl, rfl, rfl, rfl⟩

/-- Claim C7 amended: storing with Fx55 and then loading with Fx65 from the
same memory region into cleared registers reproduces the original value of
every register in the stored range, where the stored range is the exclusive
one the code implements, V0 to V(x-1); Vx itself is not stored and hence
not reproduced. -/
theorem C7_store_load_roundtrip (inp : Input) (rnd : Nat) (s : Chip8)
    (xf : Nat) (hx : xf < 16) (hb : s.i + xf ≤ 4096) :
    ∃ s1, exec inp rnd s (0xF0 + xf) 0x55 = .ok s1 ∧
      ∀ s2 : Chip8, s2.mem = s1.mem → s2.i = s.i → (∀ j, s2.v j = 0) →
        ∃ s3, exec inp rnd s2 (0xF0 + xf) 0x65 = .ok s3 ∧
          ∀ j, j < xf → s3.v j = s.v j := by
  have hfam : topNibble (0xF0 + xf) = 15 := by
    rw [topNibble_eq (0xF0 + xf) (by omega)]
    omega
  have hdx : decodeX (0xF0 + xf) = xf := by rw [decodeX_eq]; omega
  obtain ⟨m2, hok, hchar⟩ := strLoop_ok s.i s.v xf 0 s.mem (by omega)
  have hexec : exec inp rnd s (0xF0 + xf) 0x55 = .ok { s with mem := m2 } := by
    simp only [exec, hfam, hdx]
    norm_num
    rw [hok]
  refine ⟨_, hexec, fun s2 hm hi _hv => ?_⟩
  obtain ⟨v2, hok2, hchar2⟩ := ldLoop_ok s2.i s2.mem xf 0 s2.v (by rw [hi]; omega)
  have hexec2 : exec inp rnd s2 (0xF0 + xf) 0x65 = .ok { s2 with v := v2 } := by
    simp only [exec, hfam, hdx]
    norm_num
    rw [hok2]
  refine ⟨_, hexec2, fun j hj => ?_⟩
  show v2 j = s.v j
  rw [hchar2 j, if_pos (by omega), hi, hm]
  show m2 (s.i + j) = s.v j
  have := hchar (s.i + j)
  simp only [Nat.add_zero, Nat.zero_add] at this
  rw [this, if_pos (by omega)]
  congr 1
  omega

/-- Witness for the amended Claim C7 at x = 2 from the state c7State. -/
theorem C7_store_load_roundtrip_witness :
    (2 : Nat) < 16 ∧ c7State.i + 2 ≤ 4096 ∧
    (∃ s1, exec inp0 0 c7State (0xF0 + 2) 0x55 = .ok s1 ∧
      ∀ s2 : Chip8, s2.mem = s1.mem → s2.i = c7State.i → (∀ j, s2.v j = 0) →
        ∃ s3, exec inp0 0 s2 (0xF0 + 2) 0x65 = .ok s3 ∧
          ∀ j, j < 2 → s3.v j = c7State.v j) :=
  ⟨by norm_num, by norm_num [c7State],
   C7_store_load_roundtrip inp0 0 c7State 2 (by norm_num)
     (by norm_num [c7State])⟩

/- Positions drawn by the bit loop at fuel K starting from column xd: the
   j-th iteration tests bit K - 1 - j and touches column xd + j, and the
   loop stops at column 63 (clipping, not wrapping). -/
def bitDrawn (sb xd K C : Nat) : Prop :=
  ∃ j, j < K ∧ xd + j < 64 ∧ C = xd + j ∧ sb.testBit (K - 1 - j) = true

/- A collision inside one row: a drawn (clipped) bit lands on a pixel that
   is lit in the row's incoming display. -/
def bitCollide (sb xd K yd : Nat) (disp : Disp) : Prop :=
  ∃ j, j < K ∧ xd + j < 64 ∧ sb.testBit (K - 1 - j) = true ∧
    disp yd (xd + j) = true

/- Full characterization of the bit loop: it toggles exactly the drawn
   positions of its row, touches no other row and no register other than
   V15, and sets V15 to 1 exactly when some drawn bit hits a lit pixel
   (leaving V15 alone otherwise). -/
theorem drawBits_char (sb yd : Nat) :
    ∀ (K xd : Nat) (disp : Disp) (v : Regs), xd < 64 →
      (∀ R C, R ≠ yd → (drawBits sb yd K xd disp v).1 R C = disp R C) ∧
      (∀ C, bitDrawn sb xd K C →
        (drawBits sb yd K xd disp v).1 yd C = !(disp yd C)) ∧
      (∀ C, ¬ bitDrawn sb xd K C →
        (drawBits sb yd K xd disp v).1 yd C = disp yd C) ∧
      (∀ reg, reg ≠ 15 → (drawBits sb yd K xd disp v).2 reg = v reg) ∧
      (bitCollide sb xd K yd disp → (drawBits sb yd K xd disp v).2 15 = 1) ∧
      (¬ bitCollide sb xd K yd disp →
        (drawBits sb yd K xd disp v).2 15 = v 15) := by
  intro K
  induction K with
  | zero =>
    intro xd disp v hxd
    refine ⟨fun R C _ => rfl, ?_, fun C _ => rfl, fun reg _ => rfl, ?_, fun _ => rfl⟩
    · rintro C ⟨j, hj, -⟩
      omega
    · rintro ⟨j, hj, -⟩
      omega
  | succ K ih =>
    intro xd disp v hxd
    generalize hstep : (if sb.testBit K then
        (if disp yd xd then (updD disp yd xd false, updF v 15 1)
         else (updD disp yd xd true, v))
      else (disp, v)) = next
    have hres : drawBits sb yd (K + 1) xd disp v =
        if xd + 1 = 64 then next
        else drawBits sb yd K (xd + 1) next.1 next.2 := by
      rw [← hstep]
      rfl
    have hn1row : ∀ R C, R ≠ yd → next.1 R C = disp R C := by
      intro R C hR
      rw [← hstep]
      split_ifs <;> simp [updD, hR]
    have hn1col : ∀ C, C ≠ xd → next.1 yd C = disp yd C := by
      intro C hC
      rw [← hstep]
      split_ifs <;> simp [updD, hC]
    have hn1hit : sb.testBit K = true → next.1 yd xd = !(disp yd xd) := by
      intro hb
      rw [← hstep, if_pos hb]
      by_cases hd : disp yd xd
      · rw [if_pos hd]
        simp [updD, hd]
      · rw [if_neg hd]
        simp only [Bool.not_eq_true] at hd
        simp [updD, hd]
    have hn1miss : sb.testBit K = false → ∀ R C, next.1 R C = disp R C := by
      intro hb R C
      rw [← hstep, if_neg (by simp [hb])]
    have hn2 : ∀ reg, reg ≠ 15 → next.2 reg = v reg := by
      intro reg hreg
      rw [← hstep]
      split_ifs <;> simp [updF, hreg]
    have hn2c : sb.testBit K = true → disp yd xd = true → next.2 15 = 1 := by
      intro hb hd
      rw [← hstep, if_pos hb, if_pos hd]
      simp [updF]
    have hn2nc : ¬(sb.testBit K = true ∧ disp yd xd = true) → next.2 15 = v 15 := by
      intro hnot
      rw [← hstep]
      by_cases hb : sb.testBit K
      · rw [if_pos hb]
        have hd : ¬ disp yd xd = true := fun hd => hnot ⟨hb, hd⟩
        rw [if_neg hd]
      · rw [if_neg hb]
    by_cases h64 : xd + 1 = 64
    · have hxd63 : xd = 63 := by omega
      have hres2 : drawBits sb yd (K + 1) xd disp v = next := by
        rw [hres, if_pos h64]
      have hbd : ∀ C, bitDrawn sb xd (K + 1) C ↔ (C = xd ∧ sb.testBit K = true) := by
        intro C
        constructor
        · rintro ⟨j, hj, hxj, hC, hbit⟩
          have hj0 : j = 0 := by omega
          subst hj0
          have hidx : K + 1 - 1 - 0 = K := by omega
          rw [hidx] at hbit
          exact ⟨by omega, hbit⟩
        · rintro ⟨hC, hbit⟩
          refine ⟨0, by omega, by omega, by omega, ?_⟩
          have hidx : K + 1 - 1 - 0 = K := by omega
          rw [hidx]
          exact hbit
      have hbc : bitCollide sb xd (K + 1) yd disp ↔
          (sb.testBit K = true ∧ disp yd xd = true) := by
        constructor
        · rintro ⟨j, hj, hxj, hbit, hd⟩
          have hj0 : j = 0 := by omega
          subst hj0
          have hidx : K + 1 - 1 - 0 = K := by omega
          rw [hidx] at hbit
          rw [Nat.add_zero] at hd
          exact ⟨hbit, hd⟩
        · rintro ⟨hbit, hd⟩
          refine ⟨0, by omega, by omega, ?_, ?_⟩
          · have hidx : K + 1 - 1 - 0 = K := by omega
            rw [hidx]
            exact hbit
          · rw [Nat.add_zero]
            exact hd
      rw [hres2]
      refine ⟨hn1row, ?_, ?_, hn2, ?_, ?_⟩
      · intro C hC
        obtain ⟨hCeq, hbit⟩ := (hbd C).mp hC
        rw [hCeq]
        exact hn1hit hbit
      · intro C hC
        by_cases hCx : C = xd
        · by_cases hb : sb.testBit K
          · exact absurd ((hbd C).mpr ⟨hCx, hb⟩) hC
          · exact hn1miss (by simpa using hb) yd C
        · exact hn1col C hCx
      · intro hcol
        obtain ⟨hbit, hd⟩ := hbc.mp hcol
        exact hn2c hbit hd
      · intro hncol
        exact hn2nc (fun hh => hncol (hbc.mpr hh))
    · have hxd1 : xd + 1 < 64 := by omega
      obtain ⟨ih1, ih2, ih3, ih4, ih5, ih6⟩ := ih (xd + 1) next.1 next.2 hxd1
      have hres2 : drawBits sb yd (K + 1) xd disp v =
          drawBits sb yd K (xd + 1) next.1 next.2 := by
        rw [hres, if_neg h64]
      have hshift : ∀ C, bitDrawn sb xd (K + 1) C ↔
          ((C = xd ∧ sb.testBit K = true) ∨ bitDrawn sb (xd + 1) K C) := by
        intro C
        constructor
        · rintro ⟨j, hj, hxj, hC, hbit⟩
          cases j with
          | zero =>
            left
            have hidx : K + 1 - 1 - 0 = K := by omega
            rw [hidx] at hbit
            exact ⟨by omega, hbit⟩
          | succ j =>
            right
            have hidx : K + 1 - 1 - (j + 1) = K - 1 - j := by omega
            rw [hidx] at hbit
            exact ⟨j, by omega, by omega, by omega, hbit⟩
        · rintro (⟨hC, hbit⟩ | ⟨j, hj, hxj, hC, hbit⟩)
          · refine ⟨0, by omega, by omega, by omega, ?_⟩
            have hidx : K + 1 - 1 - 0 = K := by omega
            rw [hidx]
            exact hbit
          · refine ⟨j + 1, by omega, by omega, by omega, ?_⟩
            have hidx : K + 1 - 1 - (j + 1) = K - 1 - j := by omega
            rw [hidx]
            exact hbit
      have hcshift : bitCollide sb xd (K + 1) yd disp ↔
          ((sb.testBit K = true ∧ disp yd xd = true) ∨
            bitCollide sb (xd + 1) K yd disp) := by
        constructor
        · rintro ⟨j, hj, hxj, hbit, hd⟩
          cases j with
          | zero =>
            left
            have hidx : K + 1 - 1 - 0 = K := by omega
            rw [hidx] at hbit
            rw [Nat.add_zero] at hd
            exact ⟨hbit, hd⟩
          | succ j =>
            right
            have hidx : K + 1 - 1 - (j + 1) = K - 1 - j := by omega
            rw [hidx] at hbit
            have hpos : xd + (j + 1) = xd + 1 + j := by omega
            rw [hpos] at hd
            exact ⟨j, by omega, by omega, hbit, hd⟩
        · rintro (⟨hbit, hd⟩ | ⟨j, hj, hxj, hbit, hd⟩)
          · refine ⟨0, by omega, by omega, ?_, ?_⟩
            · have hidx : K + 1 - 1 - 0 = K := by omega
              rw [hidx]
              exact hbit
            · rw [Nat.add_zero]
              exact hd
          · refine ⟨j + 1, by omega, by omega, ?_, ?_⟩
            · have hidx : K + 1 - 1 - (j + 1) = K - 1 - j := by omega
              rw [hidx]
              exact hbit
            · have hpos : xd + (j + 1) = xd + 1 + j := by omega
              rw [hpos]
              exact hd
      have hcoll_next : bitCollide sb (xd + 1) K yd next.1 ↔
          bitCollide sb (xd + 1) K yd disp := by
        constructor <;> rintro ⟨j, hj, hxj, hbit, hd⟩ <;>
          refine ⟨j, hj, hxj, hbit, ?_⟩
        · rw [hn1col (xd + 1 + j) (by omega)] at hd
          exact hd
        · rw [hn1col (xd + 1 + j) (by omega)]
          exact hd
      rw [hres2]
      refine ⟨?_, ?_, ?_, ?_, ?_, ?_⟩
      · intro R C hR
        rw [ih1 R C hR, hn1row R C hR]
      · intro C hC
        rcases (hshift C).mp hC with ⟨hCeq, hbit⟩ | htail
        · have hnot : ¬ bitDrawn sb (xd + 1) K C := by
            rintro ⟨j, hj, hxj, hCeq2, -⟩
            omega
          rw [ih3 C hnot, hCeq]
          exact hn1hit hbit
        · have hne : C ≠ xd := by
            obtain ⟨j, -, -, hCeq2, -⟩ := htail
            omega
          rw [ih2 C htail, hn1col C hne]
      · intro C hC
        rw [hshift] at hC
        push_neg at hC
        obtain ⟨hhead, htail⟩ := hC
        rw [ih3 C htail]
        by_cases hCx : C = xd
        · by_cases hb : sb.testBit K
          · exact absurd hb (hhead hCx)
          · exact hn1miss (by simpa using hb) yd C
        · exact hn1col C hCx
      · intro reg hreg
        rw [ih4 reg hreg, hn2 reg hreg]
      · intro hcol
        rcases hcshift.mp hcol with ⟨hbit, hd⟩ | htail
        · by_cases ht : bitCollide sb (xd + 1) K yd next.1
          · exact ih5 ht
          · rw [ih6 ht]
            exact hn2c hbit hd
        · exact ih5 (hcoll_next.mpr htail)
      · intro hncol
        have h1 : ¬(sb.testBit K = true ∧ disp yd xd = true) := fun hh =>
          hncol (hcshift.mpr (Or.inl hh))
        have h2 : ¬ bitCollide sb (xd + 1) K yd disp := fun hh =>
          hncol (hcshift.mpr (Or.inr hh))
        rw [ih6 (fun hh => h2 (hcoll_next.mp hh))]
        exact hn2nc h1

/- Positions drawn by the row loop: relative row q (sprite byte at
   istart + (r + q)) is drawn while yd + q stays below 32 (row clipping),
   and within a row column offset c is drawn while x0 + c stays below 64
   (column clipping); the drawn bit of the sprite byte is bit 7 - c. -/
def drawnPos (mem : Mem) (istart r yd x0 fuel R C : Nat) : Prop :=
  ∃ q c, q < fuel ∧ yd + q < 32 ∧ c < 8 ∧ x0 + c < 64 ∧
    R = yd + q ∧ C = x0 + c ∧ (mem (istart + (r + q))).testBit (7 - c) = true

/- A collision across the whole sprite: some drawn (clipped) bit lands on
   a pixel lit in the incoming display. -/
def collidePos (mem : Mem) (istart r yd x0 fuel : Nat) (disp : Disp) : Prop :=
  ∃ q c, q < fuel ∧ yd + q < 32 ∧ c < 8 ∧ x0 + c < 64 ∧
    (mem (istart + (r + q))).testBit (7 - c) = true ∧
    disp (yd + q) (x0 + c) = true

/- Full characterization of the row loop when the x operand is not V15 (so
   the per-row re-read of v[x] is constant): the loop succeeds, toggles
   exactly the drawn positions, touches no register but V15, and sets V15
   to 1 exactly when the sprite collides with the incoming display. -/
theorem drawRows_char (mem : Mem) (istart xIdx : Nat) (hx : xIdx ≠ 15) :
    ∀ (fuel r yd : Nat) (disp : Disp) (v : Regs),
      yd < 32 → istart + r + fuel ≤ 4096 →
      ∃ dv, drawRows mem istart xIdx fuel r yd disp v = .ok dv ∧
        (∀ R C, drawnPos mem istart r yd (v xIdx % 64) fuel R C →
          dv.1 R C = !(disp R C)) ∧
        (∀ R C, ¬ drawnPos mem istart r yd (v xIdx % 64) fuel R C →
          dv.1 R C = disp R C) ∧
        (∀ reg, reg ≠ 15 → dv.2 reg = v reg) ∧
        (collidePos mem istart r yd (v xIdx % 64) fuel disp → dv.2 15 = 1) ∧
        (¬ collidePos mem istart r yd (v xIdx % 64) fuel disp →
          dv.2 15 = v 15) := by
  intro fuel
  induction fuel with
  | zero =>
    intro r yd disp v hyd hb
    refine ⟨(disp, v), rfl, ?_, fun R C _ => rfl, fun reg _ => rfl, ?_,
      fun _ => rfl⟩
    · rintro R C ⟨q, c, hq, -⟩
      omega
    · rintro ⟨q, c, hq, -⟩
      omega
  | succ fuel ih =>
    intro r yd disp v hyd hb
    have hmemlt : istart + r < 4096 := by omega
    obtain ⟨b1, b2, b3, b4, b5, b6⟩ :=
      drawBits_char (mem (istart + r)) yd 8 (v xIdx % 64) disp v
        (Nat.mod_lt _ (by norm_num))
    obtain ⟨DV, hDV⟩ :
        ∃ DV, drawBits (mem (istart + r)) yd 8 (v xIdx % 64) disp v = DV :=
      ⟨_, rfl⟩
    rw [hDV] at b1 b2 b3 b4 b5 b6
    have hres : drawRows mem istart xIdx (fuel + 1) r yd disp v =
        if yd + 1 = 32 then .ok DV
        else drawRows mem istart xIdx fuel (r + 1) (yd + 1) DV.1 DV.2 := by
      simp only [drawRows]
      rw [if_pos hmemlt, hDV]
    by_cases h32 : yd + 1 = 32
    · have hdp : ∀ R C, drawnPos mem istart r yd (v xIdx % 64) (fuel + 1) R C ↔
          (R = yd ∧ bitDrawn (mem (istart + r)) (v xIdx % 64) 8 C) := by
        intro R C
        constructor
        · rintro ⟨q, c, hq, hyq, hc, hxc, hR, hC, hbit⟩
          have hq0 : q = 0 := by omega
          subst hq0
          refine ⟨by omega, c, hc, hxc, hC, ?_⟩
          have h87 : (8 : Nat) - 1 - c = 7 - c := by omega
          rw [h87]
          have hr0 : istart + (r + 0) = istart + r := by omega
          rw [hr0] at hbit
          exact hbit
        · rintro ⟨hR, j, hj, hxj, hC, hbit⟩
          refine ⟨0, j, by omega, by omega, hj, hxj, by omega, hC, ?_⟩
          have h87 : (8 : Nat) - 1 - j = 7 - j := by omega
          rw [h87] at hbit
          have hr0 : istart + (r + 0) = istart + r := by omega
          rw [hr0]
          exact hbit
      have hcp : collidePos mem istart r yd (v xIdx % 64) (fuel + 1) disp ↔
          bitCollide (mem (istart + r)) (v xIdx % 64) 8 yd disp := by
        constructor
        · rintro ⟨q, c, hq, hyq, hc, hxc, hbit, hd⟩
          have hq0 : q = 0 := by omega
          subst hq0
          refine ⟨c, hc, hxc, ?_, ?_⟩
          · have h87 : (8 : Nat) - 1 - c = 7 - c := by omega
            rw [h87]
            have hr0 : istart + (r + 0) = istart + r := by omega
            rw [hr0] at hbit
            exact hbit
          · have hy0 : yd + 0 = yd := by omega
            rw [hy0] at hd
            exact hd
        · rintro ⟨j, hj, hxj, hbit, hd⟩
          refine ⟨0, j, by omega, by omega, hj, hxj, ?_, ?_⟩
          · have h87 : (8 : Nat) - 1 - j = 7 - j := by omega
            rw [h87] at hbit
            have hr0 : istart + (r + 0) = istart + r := by omega
            rw [hr0]
            exact hbit
          · have hy0 : yd + 0 = yd := by omega
            rw [hy0]
            exact hd
      refine ⟨DV, by rw [hres, if_pos h32], ?_, ?_, b4, ?_, ?_⟩
      · intro R C hd
        obtain ⟨hR, hbd⟩ := (hdp R C).mp hd
        rw [hR]
        exact b2 C hbd
      · intro R C hnd
        by_cases hR : R = yd
        · have hnb : ¬ bitDrawn (mem (istart + r)) (v xIdx % 64) 8 C :=
            fun hbd => hnd ((hdp R C).mpr ⟨hR, hbd⟩)
          rw [hR]
          exact b3 C hnb
        · exact b1 R C hR
      · intro hcol
        exact b5 (hcp.mp hcol)
      · intro hncol
        exact b6 (fun hbc => hncol (hcp.mpr hbc))
    · have hyd1 : yd + 1 < 32 := by omega
      obtain ⟨dv2, hok2, i1, i2, i3, i4, i5⟩ :=
        ih (r + 1) (yd + 1) DV.1 DV.2 hyd1 (by omega)
      rw [b4 xIdx hx] at i1 i2 i4 i5
      have hshift : ∀ R C,
          drawnPos mem istart r yd (v xIdx % 64) (fuel + 1) R C ↔
          ((R = yd ∧ bitDrawn (mem (istart + r)) (v xIdx % 64) 8 C) ∨
            drawnPos mem istart (r + 1) (yd + 1) (v xIdx % 64) fuel R C) := by
        intro R C
        constructor
        · rintro ⟨q, c, hq, hyq, hc, hxc, hR, hC, hbit⟩
          cases q with
          | zero =>
            left
            refine ⟨by omega, c, hc, hxc, hC, ?_⟩
            have h87 : (8 : Nat) - 1 - c = 7 - c := by omega
            rw [h87]
            have hr0 : istart + (r + 0) = istart + r := by omega
            rw [hr0] at hbit
            exact hbit
          | succ q =>
            right
            refine ⟨q, c, by omega, by omega, hc, hxc, by omega, hC, ?_⟩
            have hr1 : istart + (r + 1 + q) = istart + (r + (q + 1)) := by omega
            rw [hr1]
            exact hbit
        · rintro (⟨hR, j, hj, hxj, hC, hbit⟩ | ⟨q, c, hq, hyq, hc, hxc, hR, hC, hbit⟩)
          · refine ⟨0, j, by omega, by omega, hj, hxj, by omega, hC, ?_⟩
            have h87 : (8 : Nat) - 1 - j = 7 - j := by omega
            rw [h87] at hbit
            have hr0 : istart + (r + 0) = istart + r := by omega
            rw [hr0]
            exact hbit
          · refine ⟨q + 1, c, by omega, by omega, hc, hxc, by omega, hC, ?_⟩
            have hr1 : istart + (r + (q + 1)) = istart + (r + 1 + q) := by omega
            rw [hr1]
            exact hbit
      have hcshift : collidePos mem istart r yd (v xIdx % 64) (fuel + 1) disp ↔
          (bitCollide (mem (istart + r)) (v xIdx % 64) 8 yd disp ∨
            collidePos mem istart (r + 1) (yd + 1) (v xIdx % 64) fuel disp) := by
        constructor
        · rintro ⟨q, c, hq, hyq, hc, hxc, hbit, hd⟩
          cases q with
          | zero =>
            left
            refine ⟨c, hc, hxc, ?_, ?_⟩
            · have h87 : (8 : Nat) - 1 - c = 7 - c := by omega
              rw [h87]
              have hr0 : istart + (r + 0) = istart + r := by omega
              rw [hr0] at hbit
              exact hbit
            · have hy0 : yd + 0 = yd := by omega
              rw [hy0] at hd
              exact hd
          | succ q =>
            right
            refine ⟨q, c, by omega, by omega, hc, hxc, ?_, ?_⟩
            · have hr1 : istart + (r + 1 + q) = istart + (r + (q + 1)) := by omega
              rw [hr1]
              exact hbit
            · have hy1 : yd + 1 + q = yd + (q + 1) := by omega
              rw [hy1]
              exact hd
        · rintro (⟨j, hj, hxj, hbit, hd⟩ | ⟨q, c, hq, hyq, hc, hxc, hbit, hd⟩)
          · refine ⟨0, j, by omega, by omega, hj, hxj, ?_, ?_⟩
            · have h87 : (8 : Nat) - 1 - j = 7 - j := by omega
              rw [h87] at hbit
              have hr0 : istart + (r + 0) = istart + r := by omega
              rw [hr0]
              exact hbit
            · have hy0 : yd + 0 = yd := by omega
              rw [hy0]
              exact hd
          · refine ⟨q + 1, c, by omega, by omega, hc, hxc, ?_, ?_⟩
            · have hr1 : istart + (r + (q + 1)) = istart + (r + 1 + q) := by omega
              rw [hr1]
              exact hbit
            · have hy1 : yd + (q + 1) = yd + 1 + q := by omega
              rw [hy1]
              exact hd
      have htransfer :
          collidePos mem istart (r + 1) (yd + 1) (v xIdx % 64) fuel DV.1 ↔
          collidePos mem istart (r + 1) (yd + 1) (v xIdx % 64) fuel disp := by
        constructor <;> rintro ⟨q, c, hq, hyq, hc, hxc, hbit, hd⟩ <;>
          refine ⟨q, c, hq, hyq, hc, hxc, hbit, ?_⟩
        · rw [b1 (yd + 1 + q) (v xIdx % 64 + c) (by omega)] at hd
          exact hd
        · rw [b1 (yd + 1 + q) (v xIdx % 64 + c) (by omega)]
          exact hd
      refine ⟨dv2, by rw [hres, if_neg h32]; exact hok2, ?_, ?_, ?_, ?_, ?_⟩
      · intro R C hd
        rcases (hshift R C).mp hd with ⟨hR, hbd⟩ | htail
        · have hnot : ¬ drawnPos mem istart (r + 1) (yd + 1) (v xIdx % 64)
              fuel R C := by
            rintro ⟨q, c, hq, hyq, hc, hxc, hR2, -⟩
            omega
          rw [i2 R C hnot, hR]
          exact b2 C hbd
        · have hR : R ≠ yd := by
            obtain ⟨q, c, -, -, -, -, hR2, -⟩ := htail
            omega
          rw [i1 R C htail, b1 R C hR]
      · intro R C hnd
        rw [hshift] at hnd
        push_neg at hnd
        obtain ⟨hhead, htail⟩ := hnd
        rw [i2 R C htail]
        by_cases hR : R = yd
        · have hnb := hhead hR
          rw [hR]
          exact b3 C hnb
        · exact b1 R C hR
      · intro reg hreg
        rw [i3 reg hreg, b4 reg hreg]
      · intro hcol
        rcases hcshift.mp hcol with hhead | htail
        · by_cases ht : collidePos mem istart (r + 1) (yd + 1) (v xIdx % 64)
              fuel DV.1
          · exact i4 ht
          · rw [i5 ht]
            exact b5 hhead
        · exact i4 (htransfer.mpr htail)
      · intro hncol
        have h1 : ¬ bitCollide (mem (istart + r)) (v xIdx % 64) 8 yd disp :=
          fun hh => hncol (hcshift.mpr (Or.inl hh))
        have h2 : ¬ collidePos mem istart (r + 1) (yd + 1) (v xIdx % 64)
            fuel disp := fun hh => hncol (hcshift.mpr (Or.inr hh))
        rw [i5 (fun hh => h2 (htransfer.mp hh))]
        exact b6 h1

/- For every x operand (V15 included, whose mid-draw feedback changes the
   per-row start column), the row loop succeeds and never writes outside
   the 64 x 32 grid: every cell with row at least 32 or column at least 64
   is left unchanged. -/
theorem drawRows_in_grid (mem : Mem) (istart xIdx : Nat) :
    ∀ (fuel r yd : Nat) (disp : Disp) (v : Regs),
      yd < 32 → istart + r + fuel ≤ 4096 →
      ∃ dv, drawRows mem istart xIdx fuel r yd disp v = .ok dv ∧
        ∀ R C, 32 ≤ R ∨ 64 ≤ C → dv.1 R C = disp R C := by
  intro fuel
  induction fuel with
  | zero =>
    intro r yd disp v hyd hb
    exact ⟨(disp, v), rfl, fun R C _ => rfl⟩
  | succ fuel ih =>
    intro r yd disp v hyd hb
    have hmemlt : istart + r < 4096 := by omega
    obtain ⟨b1, b2, b3, b4, b5, b6⟩ :=
      drawBits_char (mem (istart + r)) yd 8 (v xIdx % 64) disp v
        (Nat.mod_lt _ (by norm_num))
    obtain ⟨DV, hDV⟩ :
        ∃ DV, drawBits (mem (istart + r)) yd 8 (v xIdx % 64) disp v = DV :=
      ⟨_, rfl⟩
    rw [hDV] at b1 b3
    have hout : ∀ R C, 32 ≤ R ∨ 64 ≤ C → DV.1 R C = disp R C := by
      intro R C h
      rcases h with h | h
      · exact b1 R C (by omega)
      · by_cases hR : R = yd
        · rw [hR]
          refine b3 C ?_
          rintro ⟨j, hj, hxj, hC, -⟩
          omega
        · exact b1 R C hR
    have hres : drawRows mem istart xIdx (fuel + 1) r yd disp v =
        if yd + 1 = 32 then .ok DV
        else drawRows mem istart xIdx fuel (r + 1) (yd + 1) DV.1 DV.2 := by
      simp only [drawRows]
      rw [if_pos hmemlt, hDV]
    by_cases h32 : yd + 1 = 32
    · exact ⟨DV, by rw [hres, if_pos h32], hout⟩
    · obtain ⟨dv2, hok2, hout2⟩ := ih (r + 1) (yd + 1) DV.1 DV.2 (by omega)
        (by omega)
      exact ⟨dv2, by rw [hres, if_neg h32]; exact hok2,
        fun R C h => by rw [hout2 R C h, hout R C h]⟩

/-- Claim C3 (confirmed): for a draw Dxyn whose x operand is not V15 (for
x = F the code re-reads Vx, which is the flag register it is concurrently
clearing and setting, mid-draw), after execution VF = 1 if and only if at
least one sprite bit that is actually drawn after clipping (row r below n
with start row + r below 32, column c below 8 with start column + c below
64, sprite bit 7 - c of mem[I + r] set) toggles a previously lit display
pixel off, the flag being computed across the whole sprite; the start row
is the y operand register reduced modulo 32 and the start column the x
operand register reduced modulo 64 (the y operand register being the one
the code decode selects). -/
theorem C3_draw_collision_flag (inp : Input) (rnd : Nat) (s : Chip8)
    (xf yf zf : Nat) (hx : xf < 16) (hxne : xf ≠ 15) (_hy : yf < 16)
    (hz : zf < 16) (hb : s.i + zf ≤ 4096) :
    ∃ s2, exec inp rnd s (0xD0 + xf) (16 * yf + zf) = .ok s2 ∧
      (s2.v 15 = 1 ↔
        ∃ r c, r < zf ∧ s.v zf % 32 + r < 32 ∧ c < 8 ∧ s.v xf % 64 + c < 64 ∧
          (s.mem (s.i + r)).testBit (7 - c) = true ∧
          s.display (s.v zf % 32 + r) (s.v xf % 64 + c) = true) := by
  have hfam : topNibble (0xD0 + xf) = 13 := by
    rw [topNibble_eq (0xD0 + xf) (by omega)]
    omega
  have hdx : decodeX (0xD0 + xf) = xf := by rw [decodeX_eq]; omega
  have hdy : decodeY (16 * yf + zf) = zf := by rw [decodeY_eq]; omega
  have hdz : decodeZ (16 * yf + zf) = zf := by rw [decodeZ_eq]; omega
  obtain ⟨dv, hok, d1, d2, d3, d4, d5⟩ :=
    drawRows_char s.mem s.i xf hxne zf 0 (s.v zf % 32) s.display
      (updF s.v 15 0) (Nat.mod_lt _ (by norm_num)) (by omega)
  have huf : updF s.v 15 0 xf = s.v xf := by simp [updF, hxne]
  rw [huf] at d1 d2 d4 d5
  have hv15 : updF s.v 15 0 15 = 0 := by simp [updF]
  have hexec : exec inp rnd s (0xD0 + xf) (16 * yf + zf) =
      .ok { s with display := dv.1, v := dv.2 } := by
    simp only [exec, hfam, hdx, hdy, hdz]
    norm_num
    rw [hok]
  have hcpiff : collidePos s.mem s.i 0 (s.v zf % 32) (s.v xf % 64) zf
      s.display ↔
      (∃ r c, r < zf ∧ s.v zf % 32 + r < 32 ∧ c < 8 ∧ s.v xf % 64 + c < 64 ∧
        (s.mem (s.i + r)).testBit (7 - c) = true ∧
        s.display (s.v zf % 32 + r) (s.v xf % 64 + c) = true) := by
    constructor
    · rintro ⟨q, c, hq, hyq, hc, hxc, hbit, hd⟩
      refine ⟨q, c, hq, hyq, hc, hxc, ?_, hd⟩
      have hq0 : s.i + (0 + q) = s.i + q := by omega
      rw [hq0] at hbit
      exact hbit
    · rintro ⟨r, c, hr, hyr, hc, hxc, hbit, hd⟩
      refine ⟨r, c, hr, hyr, hc, hxc, ?_, hd⟩
      have hq0 : s.i + (0 + r) = s.i + r := by omega
      rw [hq0]
      exact hbit
  refine ⟨_, hexec, ?_⟩
  show dv.2 15 = 1 ↔ _
  constructor
  · intro h1
    by_cases hcol : collidePos s.mem s.i 0 (s.v zf % 32) (s.v xf % 64) zf
        s.display
    · exact hcpiff.mp hcol
    · rw [d5 hcol, hv15] at h1
      omega
  · intro h
    exact d4 (hcpiff.mpr h)

/-- Claim C4 (confirmed): for every draw Dxyn no display write ever leaves
the 64 x 32 grid (cells with row at least 32 or column at least 64 are
untouched, for every x operand, the flag register included), and for x not
V15 the full clipping behaviour is characterized: the starting column is
the x operand register reduced modulo 64 and the starting row the y
operand register reduced modulo 32, a position is toggled exactly when its
row offset r is below n with start row + r at most 31 and its column
offset c below 8 with start column + c at most 63 (rows and columns past
the edges are clipped, not wrapped), and every position not of that form
keeps its old pixel. -/
theorem C4_draw_clipped_in_bounds (inp : Input) (rnd : Nat) (s : Chip8)
    (xf yf zf : Nat) (hx : xf < 16) (_hy : yf < 16) (hz : zf < 16)
    (hb : s.i + zf ≤ 4096) :
    ∃ s2, exec inp rnd s (0xD0 + xf) (16 * yf + zf) = .ok s2 ∧
      (∀ R C, 32 ≤ R ∨ 64 ≤ C → s2.display R C = s.display R C) ∧
      (xf ≠ 15 →
        (∀ R C, (∃ r c, r < zf ∧ s.v zf % 32 + r < 32 ∧ c < 8 ∧
            s.v xf % 64 + c < 64 ∧ R = s.v zf % 32 + r ∧ C = s.v xf % 64 + c ∧
            (s.mem (s.i + r)).testBit (7 - c) = true) →
          s2.display R C = !(s.display R C)) ∧
        (∀ R C, ¬(∃ r c, r < zf ∧ s.v zf % 32 + r < 32 ∧ c < 8 ∧
            s.v xf % 64 + c < 64 ∧ R = s.v zf % 32 + r ∧ C = s.v xf % 64 + c ∧
            (s.mem (s.i + r)).testBit (7 - c) = true) →
          s2.display R C = s.display R C)) := by
  have hfam : topNibble (0xD0 + xf) = 13 := by
    rw [topNibble_eq (0xD0 + xf) (by omega)]
    omega
  have hdx : decodeX (0xD0 + xf) = xf := by rw [decodeX_eq]; omega
  have hdy : decodeY (16 * yf + zf) = zf := by rw [decodeY_eq]; omega
  have hdz : decodeZ (16 * yf + zf) = zf := by rw [decodeZ_eq]; omega
  obtain ⟨dv, hok, hgrid⟩ :=
    drawRows_in_grid s.mem s.i xf zf 0 (s.v zf % 32) s.display
      (updF s.v 15 0) (Nat.mod_lt _ (by norm_num)) (by omega)
  have hexec : exec inp rnd s (0xD0 + xf) (16 * yf + zf) =
      .ok { s with display := dv.1, v := dv.2 } := by
    simp only [exec, hfam, hdx, hdy, hdz]
    norm_num
    rw [hok]
  refine ⟨_, hexec, ?_, ?_⟩
  · intro R C h
    show dv.1 R C = s.display R C
    exact hgrid R C h
  · intro hxne
    obtain ⟨dv2, hok2, d1, d2, d3, d4, d5⟩ :=
      drawRows_char s.mem s.i xf hxne zf 0 (s.v zf % 32) s.display
        (updF s.v 15 0) (Nat.mod_lt _ (by norm_num)) (by omega)
    have hdveq : dv2 = dv := Except.ok.inj (hok2.symm.trans hok)
    rw [hdveq] at d1 d2
    have huf : updF s.v 15 0 xf = s.v xf := by simp [updF, hxne]
    rw [huf] at d1 d2
    constructor
    · intro R C hdr
      show dv.1 R C = !(s.display R C)
      obtain ⟨r, c, h1, h2, h3, h4, h5, h6, h7⟩ := hdr
      refine d1 R C ⟨r, c, h1, h2, h3, h4, h5, h6, ?_⟩
      have hq0 : s.i + (0 + r) = s.i + r := by omega
      rw [hq0]
      exact h7
    · intro R C hnd
      show dv.1 R C = s.display R C
      refine d2 R C ?_
      rintro ⟨q, c, h1, h2, h3, h4, h5, h6, h7⟩
      refine hnd ⟨q, c, h1, h2, h3, h4, h5, h6, ?_⟩
      have hq0 : s.i + (0 + q) = s.i + q := by omega
      rw [hq0] at h7
      exact h7

/- A machine for the draw scenarios: sprite bytes 0xFF at I = 0x300 and
   I + 1, draw at V1 = 60 (x start, so columns clip at 63) and V3 = 30
   (y start, so rows clip at 31), with one pixel already lit at (30, 62). -/
def c3State : Chip8 :=
  { mem := fun a => if a = 0x300 then 0xFF else if a = 0x301 then 0xFF else 0
    pc := 0x200
    v := fun j => if j = 1 then 60 else if j = 3 then 30 else 0
    i := 0x300
    stack := fun _ => 0
    sp := 0
    delayTimer := 0
    soundTimer := 0
    display := fun r c => (r == 30) && (c == 62) }

/-- Witness for Claim C3: the draw 0xD123 (x = 1, n = 3) from c3State. -/
theorem C3_draw_collision_flag_witness :
    (1 : Nat) < 16 ∧ (1 : Nat) ≠ 15 ∧ (2 : Nat) < 16 ∧ (3 : Nat) < 16 ∧
    c3State.i + 3 ≤ 4096 ∧
    (∃ s2, exec inp0 0 c3State (0xD0 + 1) (16 * 2 + 3) = .ok s2 ∧
      (s2.v 15 = 1 ↔
        ∃ r c, r < 3 ∧ c3State.v 3 % 32 + r < 32 ∧ c < 8 ∧
          c3State.v 1 % 64 + c < 64 ∧
          (c3State.mem (c3State.i + r)).testBit (7 - c) = true ∧
          c3State.display (c3State.v 3 % 32 + r) (c3State.v 1 % 64 + c)
            = true)) :=
  ⟨by norm_num, by norm_num, by norm_num, by norm_num, by norm_num [c3State],
   C3_draw_collision_flag inp0 0 c3State 1 2 3 (by norm_num) (by norm_num)
     (by norm_num) (by norm_num) (by norm_num [c3State])⟩

/-- Witness for Claim C4: the draw 0xD123 (x = 1, n = 3) from c3State. -/
theorem C4_draw_clipped_in_bounds_witness :
    (1 : Nat) < 16 ∧ (2 : Nat) < 16 ∧ (3 : Nat) < 16 ∧
    c3State.i + 3 ≤ 4096 ∧
    (∃ s2, exec inp0 0 c3State (0xD0 + 1) (16 * 2 + 3) = .ok s2 ∧
      (∀ R C, 32 ≤ R ∨ 64 ≤ C → s2.display R C = c3State.display R C) ∧
      ((1 : Nat) ≠ 15 →
        (∀ R C, (∃ r c, r < 3 ∧ c3State.v 3 % 32 + r < 32 ∧ c < 8 ∧
            c3State.v 1 % 64 + c < 64 ∧ R = c3State.v 3 % 32 + r ∧
            C = c3State.v 1 % 64 + c ∧
            (c3State.mem (c3State.i + r)).testBit (7 - c) = true) →
          s2.display R C = !(c3State.display R C)) ∧
        (∀ R C, ¬(∃ r c, r < 3 ∧ c3State.v 3 % 32 + r < 32 ∧ c < 8 ∧
            c3State.v 1 % 64 + c < 64 ∧ R = c3State.v 3 % 32 + r ∧
            C = c3State.v 1 % 64 + c ∧
            (c3State.mem (c3State.i + r)).testBit (7 - c) = true) →
          s2.display R C = c3State.display R C))) :=
  ⟨by norm_num, by norm_num, by norm_num, by norm_num [c3State],
   C4_draw_clipped_in_bounds inp0 0 c3State 1 2 3 (by norm_num) (by norm_num)
     (by norm_num) (by norm_num [c3State])⟩
